import Mathlib

/-!
Verification of the tree-editing core of the dragndrop repository
(src/src/components/DragAndDropDemo.tsx).

The data model is the `ItemType` interface: a node has an `id`, a `type`
drawn from the component registry (`componentDefinitions`), a `props` bag,
and an ordered list of children.  A tree is an ordered list of root nodes
(`containerItems`).  The stateful React handlers are embedded as pure
functions from the previous tree (and the handler's arguments) to the new
tree, exactly as their `setContainerItems(prevItems => ...)` bodies do.

JS `children?: ItemType[]` is optional; every mutation in the source
normalises an absent list to `[]` (`item.children ? ... : []`,
`draggedItem.children || []`), and all nodes are created with
`children: []`, so children are embedded as a plain list.
-/

/-- The six component type tags of `componentDefinitions`. -/
inductive CompType : Type where
  | Button
  | Input
  | Text
  | Div
  | Row
  | Column
deriving DecidableEq, Repr

/-- The tag's name, as used for the keys of the registry and in the
HTML serializer's output. -/
def CompType.name : CompType → String
  | .Button => "Button"
  | .Input => "Input"
  | .Text => "Text"
  | .Div => "Div"
  | .Row => "Row"
  | .Column => "Column"

/-- The `canHaveChildren` lookup table built from `componentDefinitions`:
Button, Input and Text are leaves; Div, Row and Column are containers. -/
def canHaveChildren : CompType → Bool
  | .Button => false
  | .Input => false
  | .Text => false
  | .Div => true
  | .Row => true
  | .Column => true

/-- The props bag: a mapping from prop name to (string) value. -/
abbrev Props := List (String × String)

/-- The `ItemType` interface: id, type tag, props, ordered children. -/
inductive Item : Type where
  | mk (id : String) (type : CompType) (props : Props) (children : List Item) : Item

def Item.id : Item → String
  | .mk i _ _ _ => i

def Item.type : Item → CompType
  | .mk _ t _ _ => t

def Item.props : Item → Props
  | .mk _ _ pr _ => pr

def Item.children : Item → List Item
  | .mk _ _ _ cs => cs

/-- `removeItem(items, id)` from `moveItem` / `handleTrashDrop`: rewrite
every node's children recursively, then drop every node whose id matches.
The source maps (cleaning children) and then filters at each level; the
embedding fuses the map and the filter per element, which yields the same
list because the filter tests the (unchanged) id field. -/
def removeItem : List Item → String → List Item
  | [], _ => []
  | Item.mk i t pr cs :: rest, x =>
      if i = x then removeItem rest x
      else Item.mk i t pr (removeItem cs x) :: removeItem rest x

/-- `addItem(items, newItem, parentId)` from `moveItem`: with a null
parent, append at the root; otherwise append `newItem` to the children of
every node whose id equals `parentId`, recursing elsewhere. -/
def addItem : List Item → Item → Option String → List Item
  | items, n, none => items ++ [n]
  | [], _, some _ => []
  | Item.mk i t pr cs :: rest, n, some p =>
      (if i = p then Item.mk i t pr (cs ++ [n])
       else Item.mk i t pr (addItem cs n (some p))) :: addItem rest n (some p)

/-- `moveItem(draggedItem, newParentId)`: remove the dragged id, then
insert the dragged payload (its children carried along) under the new
parent.  The source spreads `{...draggedItem, children: draggedItem.children || []}`;
the extra `parentId` field of `DraggedItem` is not part of `ItemType`
and the children are already a list here. -/
def moveItem (prevItems : List Item) (draggedItem : Item) (newParentId : Option String) : List Item :=
  addItem (removeItem prevItems draggedItem.id) draggedItem newParentId

/-- `findItemById(items, id)`: depth-first search, first match wins. -/
def findItemById : List Item → String → Option Item
  | [], _ => none
  | Item.mk i t pr cs :: rest, x =>
      if i = x then some (Item.mk i t pr cs)
      else
        match findItemById cs x with
        | some found => some found
        | none => findItemById rest x

/-- `handleDrop(droppedItem)` (Container background drop): if no
root-level item has the dropped id, append a copy carrying a fresh id;
otherwise return the previous tree unchanged.  The nondeterministic
`uuidv4()` is passed in as `freshId`. -/
def handleDrop (prevItems : List Item) (droppedItem : Item) (freshId : String) : List Item :=
  if !(prevItems.any fun it => it.id == droppedItem.id) then
    prevItems ++ [Item.mk freshId droppedItem.type droppedItem.props droppedItem.children]
  else prevItems

/-- `handleTrashDrop(droppedItem)`: unconditional removal by id. -/
def handleTrashDrop (prevItems : List Item) (droppedItem : Item) : List Item :=
  removeItem prevItems droppedItem.id

/-- The `hover` handler of `DraggableItem`'s `useDrop`, as a function of
the tree.  The geometry test `hoverClientY > hoverMiddleY` is abstracted
into the boolean `inLowerHalf`; the early returns for a missing DOM ref
or client offset are the `inLowerHalf = false` no-op case.  The dragged
payload's `parentId` field is passed separately. -/
def hoverStep (tree : List Item) (dragged : Item) (draggedParentId : Option String)
    (target : Item) (inLowerHalf : Bool) : List Item :=
  if dragged.id = target.id ∨ draggedParentId = some target.id then tree
  else if inLowerHalf && canHaveChildren target.type then
    moveItem tree dragged (some target.id)
  else tree

/-- `handleItemClick(item)`: toggle selection — clicking the currently
selected id clears the selection, anything else selects the item. -/
def handleItemClick (selectedItem : Option Item) (item : Item) : Option Item :=
  if selectedItem.map Item.id = some item.id then none else some item

/-- `renderHtml(items)` from the utils region: each node serializes to
an open tag, the concatenated serializations of its children, and a close
tag; root results are concatenated.  The source's `renderElement` plus
`map`/`join('')` are fused into one recursion. -/
def renderHtml : List Item → String
  | [] => ""
  | Item.mk _ t _ cs :: rest =>
      "<" ++ t.name ++ ">" ++ renderHtml cs ++ "</" ++ t.name ++ ">" ++ renderHtml rest

/-- Depth-first list of every id occurring in a forest (each node's id
followed by the ids of its subtree). -/
def treeIds : List Item → List String
  | [] => []
  | Item.mk i _ _ cs :: rest => i :: (treeIds cs ++ treeIds rest)

/-- The id sequence of a found node's children, used to state that an
operation leaves a node's children untouched. -/
def childIdSeq (o : Option Item) : Option (List String) :=
  o.map fun q => q.children.map Item.id

/-! ### Basic lemmas about ids, search, and removal -/

theorem Item.id_mk (i : String) (t : CompType) (pr : Props) (cs : List Item) :
    (Item.mk i t pr cs).id = i := rfl

theorem Item.type_mk (i : String) (t : CompType) (pr : Props) (cs : List Item) :
    (Item.mk i t pr cs).type = t := rfl

theorem Item.props_mk (i : String) (t : CompType) (pr : Props) (cs : List Item) :
    (Item.mk i t pr cs).props = pr := rfl

theorem Item.children_mk (i : String) (t : CompType) (pr : Props) (cs : List Item) :
    (Item.mk i t pr cs).children = cs := rfl

theorem treeIds_append : ∀ l₁ l₂ : List Item,
    treeIds (l₁ ++ l₂) = treeIds l₁ ++ treeIds l₂
  | [], l₂ => by simp [treeIds]
  | Item.mk i t pr cs :: rest, l₂ => by
      simp [treeIds, treeIds_append rest l₂]

theorem removeItem_append : ∀ (l₁ l₂ : List Item) (x : String),
    removeItem (l₁ ++ l₂) x = removeItem l₁ x ++ removeItem l₂ x
  | [], l₂, x => by simp [removeItem]
  | Item.mk i t pr cs :: rest, l₂, x => by
      by_cases hix : i = x
      · simp [removeItem, hix, removeItem_append rest l₂ x]
      · simp [removeItem, hix, removeItem_append rest l₂ x]

theorem removeItem_of_not_mem : ∀ (l : List Item) (x : String),
    x ∉ treeIds l → removeItem l x = l
  | [], x, _ => by simp [removeItem]
  | Item.mk i t pr cs :: rest, x, h => by
      simp only [treeIds, List.mem_cons, List.mem_append, not_or] at h
      obtain ⟨h1, h2, h3⟩ := h
      simp only [removeItem]
      rw [if_neg fun he => h1 he.symm]
      rw [removeItem_of_not_mem cs x h2, removeItem_of_not_mem rest x h3]

theorem treeIds_removeItem_sublist : ∀ (l : List Item) (x : String),
    (treeIds (removeItem l x)).Sublist (treeIds l)
  | [], x => by simp [removeItem]
  | Item.mk i t pr cs :: rest, x => by
      by_cases hix : i = x
      · simp only [removeItem, if_pos hix, treeIds]
        exact ((treeIds_removeItem_sublist rest x).trans
          (List.sublist_append_right _ _)).cons _
      · simp only [removeItem, if_neg hix, treeIds]
        exact ((treeIds_removeItem_sublist cs x).append
          (treeIds_removeItem_sublist rest x)).cons₂ _

theorem not_mem_treeIds_removeItem : ∀ (l : List Item) (x : String),
    x ∉ treeIds (removeItem l x)
  | [], x => by simp [removeItem, treeIds]
  | Item.mk i t pr cs :: rest, x => by
      by_cases hix : i = x
      · simp only [removeItem, if_pos hix]
        exact not_mem_treeIds_removeItem rest x
      · simp only [removeItem, if_neg hix, treeIds, List.mem_cons, List.mem_append, not_or]
        exact ⟨fun he => hix he.symm, not_mem_treeIds_removeItem cs x,
          not_mem_treeIds_removeItem rest x⟩

theorem removeItem_removeItem (l : List Item) (x : String) :
    removeItem (removeItem l x) x = removeItem l x :=
  removeItem_of_not_mem _ _ (not_mem_treeIds_removeItem l x)

theorem findItemById_append : ∀ (l₁ l₂ : List Item) (x : String),
    findItemById (l₁ ++ l₂) x
      = match findItemById l₁ x with
        | some q => some q
        | none => findItemById l₂ x
  | [], l₂, x => by simp [findItemById]
  | Item.mk i t pr cs :: rest, l₂, x => by
      by_cases hix : i = x
      · simp [findItemById, hix]
      · simp only [List.cons_append, findItemById, if_neg hix]
        cases hcs : findItemById cs x with
        | some q => simp
        | none => simp [findItemById_append rest l₂ x]

theorem find_eq_none_of_not_mem : ∀ (l : List Item) (x : String),
    x ∉ treeIds l → findItemById l x = none
  | [], x, _ => by simp [findItemById]
  | Item.mk i t pr cs :: rest, x, h => by
      simp only [treeIds, List.mem_cons, List.mem_append, not_or] at h
      obtain ⟨h1, h2, h3⟩ := h
      simp only [findItemById]
      rw [if_neg fun he => h1 he.symm]
      rw [find_eq_none_of_not_mem cs x h2, find_eq_none_of_not_mem rest x h3]

theorem not_mem_of_find_eq_none : ∀ (l : List Item) (x : String),
    findItemById l x = none → x ∉ treeIds l
  | [], x, _ => by simp [treeIds]
  | Item.mk i t pr cs :: rest, x, h => by
      simp only [findItemById] at h
      by_cases hix : i = x
      · rw [if_pos hix] at h
        exact absurd h (by simp)
      · rw [if_neg hix] at h
        cases hcs : findItemById cs x with
        | some q => rw [hcs] at h; exact absurd h (by simp)
        | none =>
            rw [hcs] at h
            simp only [treeIds, List.mem_cons, List.mem_append, not_or]
            exact ⟨fun he => hix he.symm, not_mem_of_find_eq_none cs x hcs,
              not_mem_of_find_eq_none rest x h⟩

theorem mem_of_find_eq_some (l : List Item) (x : String) (q : Item)
    (h : findItemById l x = some q) : x ∈ treeIds l := by
  by_contra hx
  rw [find_eq_none_of_not_mem l x hx] at h
  exact absurd h (by simp)

theorem find_some_of_mem (l : List Item) (x : String) (h : x ∈ treeIds l) :
    ∃ q, findItemById l x = some q := by
  cases hf : findItemById l x with
  | some q => exact ⟨q, rfl⟩
  | none => exact absurd h (not_mem_of_find_eq_none l x hf)

theorem id_mem_treeIds_of_mem : ∀ (l : List Item) (c : Item),
    c ∈ l → c.id ∈ treeIds l
  | [], c, h => by simp at h
  | Item.mk i t pr cs :: rest, c, h => by
      rcases List.mem_cons.mp h with hc | hc
      · subst hc; simp [treeIds, Item.id]
      · simp only [treeIds, List.mem_cons, List.mem_append]
        exact Or.inr (Or.inr (id_mem_treeIds_of_mem rest c hc))

theorem id_mem_treeIds_single (a : Item) : a.id ∈ treeIds [a] := by
  cases a with
  | mk i t pr cs => simp [treeIds, Item.id]

/-! ### Lemmas about insertion -/

theorem addItem_none (l : List Item) (n : Item) : addItem l n none = l ++ [n] := by
  cases l <;> simp [addItem]

theorem addItem_of_not_mem : ∀ (l : List Item) (n : Item) (p : String),
    p ∉ treeIds l → addItem l n (some p) = l
  | [], n, p, _ => by simp [addItem]
  | Item.mk i t pr cs :: rest, n, p, h => by
      simp only [treeIds, List.mem_cons, List.mem_append, not_or] at h
      obtain ⟨h1, h2, h3⟩ := h
      simp only [addItem]
      rw [if_neg fun he => h1 he.symm]
      rw [addItem_of_not_mem cs n p h2, addItem_of_not_mem rest n p h3]

theorem addItem_map_id : ∀ (l : List Item) (n : Item) (p : String),
    (addItem l n (some p)).map Item.id = l.map Item.id
  | [], n, p => by simp [addItem]
  | Item.mk i t pr cs :: rest, n, p => by
      by_cases hip : i = p <;>
        simp [addItem, hip, Item.id, addItem_map_id rest n p]

theorem mem_treeIds_addItem : ∀ (l : List Item) (n : Item) (p j : String),
    j ∈ treeIds (addItem l n (some p)) → j ∈ treeIds l ∨ j ∈ treeIds [n]
  | [], n, p, j, h => by simp [addItem, treeIds] at h
  | Item.mk i t pr cs :: rest, n, p, j, h => by
      by_cases hip : i = p
      · simp only [addItem, if_pos hip, treeIds, List.mem_cons, List.mem_append,
          treeIds_append] at h
        rcases h with h | (h | h) | h
        · exact Or.inl (by simp [treeIds, h])
        · exact Or.inl (by simp [treeIds, List.mem_append, h])
        · exact Or.inr h
        · rcases mem_treeIds_addItem rest n p j h with h' | h'
          · exact Or.inl (by simp [treeIds, List.mem_append, h'])
          · exact Or.inr h'
      · simp only [addItem, if_neg hip, treeIds, List.mem_cons, List.mem_append] at h
        rcases h with h | h | h
        · exact Or.inl (by simp [treeIds, h])
        · rcases mem_treeIds_addItem cs n p j h with h' | h'
          · exact Or.inl (by simp [treeIds, List.mem_append, h'])
          · exact Or.inr h'
        · rcases mem_treeIds_addItem rest n p j h with h' | h'
          · exact Or.inl (by simp [treeIds, List.mem_append, h'])
          · exact Or.inr h'

theorem removeItem_single_self (n : Item) : removeItem [n] n.id = [] := by
  obtain ⟨ni, nt, npr, ncs⟩ := n
  simp [removeItem, Item.id]

theorem removeItem_addItem : ∀ (l : List Item) (n : Item) (p : String),
    removeItem (addItem l n (some p)) n.id = removeItem l n.id
  | [], n, p => by simp [addItem]
  | Item.mk i t pr cs :: rest, n, p => by
      by_cases hip : i = p
      · by_cases hin : i = n.id
        · have hpn : p = n.id := hip.symm.trans hin
          simp [addItem, removeItem, hip, hpn, removeItem_addItem rest n]
        · simp [addItem, removeItem, hip, hin, removeItem_append,
            removeItem_single_self, removeItem_addItem rest n p]
      · by_cases hin : i = n.id
        · subst hin
          simp [addItem, removeItem, hip, removeItem_addItem rest n p]
        · simp [addItem, removeItem, hip, hin, removeItem_addItem cs n p,
            removeItem_addItem rest n p]

/-! ### Search after insertion and removal -/

theorem find_addItem_self : ∀ (l : List Item) (n : Item) (p : String),
    n.id ∉ treeIds l → p ∈ treeIds l →
    findItemById (addItem l n (some p)) n.id = some n
  | [], _, _, _, hp => by simp [treeIds] at hp
  | Item.mk i t pr cs :: rest, n, p, hfr, hp => by
      simp only [treeIds, List.mem_cons, List.mem_append, not_or] at hfr hp
      obtain ⟨h1, h2, h3⟩ := hfr
      have hni : ¬ i = n.id := fun he => h1 he.symm
      by_cases hip : i = p
      · simp only [addItem, if_pos hip, findItemById]
        rw [if_neg hni, findItemById_append, find_eq_none_of_not_mem cs n.id h2]
        obtain ⟨ni, nt, npr, ncs⟩ := n
        simp [findItemById, Item.id]
      · rcases hp with hp | hp | hp
        · exact absurd hp.symm hip
        · simp only [addItem, if_neg hip, findItemById]
          rw [if_neg hni, find_addItem_self cs n p h2 hp]
        · by_cases hpcs : p ∈ treeIds cs
          · simp only [addItem, if_neg hip, findItemById]
            rw [if_neg hni, find_addItem_self cs n p h2 hpcs]
          · simp only [addItem, if_neg hip, findItemById]
            rw [if_neg hni, addItem_of_not_mem cs n p hpcs,
              find_eq_none_of_not_mem cs n.id h2,
              find_addItem_self rest n p h3 hp]

theorem find_addItem_parent : ∀ (l : List Item) (n : Item) (p : String) (q : Item),
    findItemById l p = some q →
    findItemById (addItem l n (some p)) p
      = some (Item.mk q.id q.type q.props (q.children ++ [n]))
  | [], _, _, _, h => by simp [findItemById] at h
  | Item.mk i t pr cs :: rest, n, p, q, h => by
      simp only [findItemById] at h
      by_cases hip : i = p
      · rw [if_pos hip] at h
        have hq := Option.some.inj h
        subst hq
        simp [addItem, if_pos hip, findItemById, hip, Item.id, Item.type,
          Item.props, Item.children]
      · rw [if_neg hip] at h
        cases hcs : findItemById cs p with
        | some q' =>
            rw [hcs] at h
            have hq := Option.some.inj h
            subst hq
            simp only [addItem, if_neg hip, findItemById]
            rw [find_addItem_parent cs n p q' hcs]
        | none =>
            rw [hcs] at h
            have hpcs : p ∉ treeIds cs := not_mem_of_find_eq_none cs p hcs
            simp only [addItem, if_neg hip, findItemById]
            rw [addItem_of_not_mem cs n p hpcs, hcs,
              find_addItem_parent rest n p q h]

theorem find_subtree_sublist : ∀ (l : List Item) (a : String) (q : Item),
    findItemById l a = some q → (treeIds [q]).Sublist (treeIds l)
  | [], _, _, h => by simp [findItemById] at h
  | Item.mk i t pr cs :: rest, a, q, h => by
      simp only [findItemById] at h
      by_cases hia : i = a
      · rw [if_pos hia] at h
        have hq := Option.some.inj h
        subst hq
        simp only [treeIds, List.append_nil]
        exact (List.sublist_append_left _ _).cons₂ _
      · rw [if_neg hia] at h
        cases hcs : findItemById cs a with
        | some q' =>
            rw [hcs] at h
            have hq := Option.some.inj h
            subst hq
            simp only [treeIds]
            exact ((find_subtree_sublist cs a q' hcs).trans
              (List.sublist_append_left _ _)).cons _
        | none =>
            rw [hcs] at h
            simp only [treeIds]
            exact ((find_subtree_sublist rest a q h).trans
              (List.sublist_append_right _ _)).cons _

theorem find_remove_of_child : ∀ (l : List Item) (aid : String) (aty : CompType)
    (apr : Props) (acs : List Item) (n : Item),
    (treeIds l).Nodup →
    findItemById l aid = some (Item.mk aid aty apr acs) →
    n ∈ acs →
    findItemById (removeItem l n.id) aid
      = some (Item.mk aid aty apr (removeItem acs n.id))
  | [], _, _, _, _, _, _, h, _ => by simp [findItemById] at h
  | Item.mk i t pr cs :: rest, aid, aty, apr, acs, n, hnd, h, hn => by
      have hNacs : n.id ∈ treeIds acs := id_mem_treeIds_of_mem acs n hn
      simp only [treeIds, List.nodup_cons, List.mem_append, not_or,
        List.nodup_append] at hnd
      obtain ⟨⟨hi1, hi2⟩, hnd1, hnd2, hdisj⟩ := hnd
      simp only [findItemById] at h
      by_cases hia : i = aid
      · rw [if_pos hia] at h
        rw [Option.some.injEq, Item.mk.injEq] at h
        obtain ⟨he1, he2, he3, he4⟩ := h
        have hNcs : n.id ∈ treeIds cs := he4 ▸ hNacs
        have hiN : ¬ i = n.id := fun he => hi1 (he ▸ hNcs)
        simp only [removeItem]
        rw [if_neg hiN]
        simp only [findItemById]
        rw [if_pos hia, he1, he2, he3, he4]
      · rw [if_neg hia] at h
        cases hcs : findItemById cs aid with
        | some q' =>
            rw [hcs] at h
            have hq := Option.some.inj h
            subst hq
            have hsub := find_subtree_sublist cs aid _ hcs
            have hNcs : n.id ∈ treeIds cs := by
              refine hsub.subset ?_
              simp [treeIds, hNacs]
            have hiN : ¬ i = n.id := fun he => hi1 (he ▸ hNcs)
            simp only [removeItem]
            rw [if_neg hiN]
            simp only [findItemById]
            rw [if_neg hia,
              find_remove_of_child cs aid aty apr acs n hnd1 hcs hn]
        | none =>
            rw [hcs] at h
            by_cases hin : i = n.id
            · simp only [removeItem]
              rw [if_pos hin]
              exact find_remove_of_child rest aid aty apr acs n hnd2 h hn
            · simp only [removeItem]
              rw [if_neg hin]
              simp only [findItemById]
              have hnone : findItemById (removeItem cs n.id) aid = none :=
                find_eq_none_of_not_mem _ _ fun hmem' =>
                  (not_mem_of_find_eq_none cs aid hcs)
                    ((treeIds_removeItem_sublist cs n.id).subset hmem')
              rw [if_neg hia, hnone,
                find_remove_of_child rest aid aty apr acs n hnd2 h hn]

theorem removeItem_filter_of_nodup : ∀ (cs : List Item) (n : Item),
    (treeIds cs).Nodup → n ∈ cs →
    removeItem cs n.id = cs.filter fun c => c.id != n.id
  | [], _, _, hmem => by simp at hmem
  | Item.mk ci ct cpr ccs :: cs', n, hnd, hmem => by
      simp only [treeIds, List.nodup_cons, List.mem_append, not_or,
        List.nodup_append] at hnd
      obtain ⟨⟨hcin1, hcin2⟩, hnd1, hnd2, hdisj⟩ := hnd
      rcases List.mem_cons.mp hmem with hn | hn
      · subst hn
        have hfe : List.filter (fun c => c.id != ci) cs' = cs' :=
          List.filter_eq_self.mpr fun c hc => by
            simp only [Item.id_mk, bne_iff_ne, ne_eq]
            exact fun he => hcin2 (he ▸ id_mem_treeIds_of_mem cs' c hc)
        have hlhs : removeItem (Item.mk ci ct cpr ccs :: cs') (Item.mk ci ct cpr ccs).id
            = cs' := by
          simp [removeItem, Item.id_mk, removeItem_of_not_mem cs' ci hcin2]
        rw [hlhs]
        simp [List.filter_cons, Item.id_mk, hfe]
      · have hNid : n.id ∈ treeIds cs' := id_mem_treeIds_of_mem cs' n hn
        have hciN : ¬ ci = n.id := fun he => hcin2 (he ▸ hNid)
        have hccsN : n.id ∉ treeIds ccs := fun hmem' => hdisj hmem' hNid
        simp only [removeItem]
        rw [if_neg hciN, removeItem_of_not_mem ccs n.id hccsN,
          removeItem_filter_of_nodup cs' n hnd2 hn]
        have hhead : ((Item.mk ci ct cpr ccs).id != n.id) = true := by
          simp only [Item.id_mk, bne_iff_ne, ne_eq]
          exact hciN
        simp [List.filter_cons, hhead]

theorem childIdSeq_addItem : ∀ (l : List Item) (n : Item) (p j : String),
    (∀ k ∈ treeIds l, k ∉ treeIds [n]) → j ∈ treeIds l → ¬ j = p →
    childIdSeq (findItemById (addItem l n (some p)) j)
      = childIdSeq (findItemById l j)
  | [], _, _, _, _, hj, _ => by simp [treeIds] at hj
  | Item.mk i t pr cs :: rest, n, p, j, hdisj, hj, hjp => by
      have hdcs : ∀ k ∈ treeIds cs, k ∉ treeIds [n] := fun k hk =>
        hdisj k (by simp [treeIds, List.mem_append, hk])
      have hdrest : ∀ k ∈ treeIds rest, k ∉ treeIds [n] := fun k hk =>
        hdisj k (by simp [treeIds, List.mem_append, hk])
      have hj' : j = i ∨ j ∈ treeIds cs ∨ j ∈ treeIds rest := by
        simpa [treeIds, List.mem_cons, List.mem_append] using hj
      by_cases hip : i = p
      · have hji : ¬ i = j := fun he => hjp (he.symm.trans hip)
        simp only [addItem, if_pos hip, findItemById, if_neg hji]
        rw [findItemById_append]
        cases hcs : findItemById cs j with
        | some q => simp
        | none =>
            have hjn : findItemById [n] j = none :=
              find_eq_none_of_not_mem [n] j (hdisj j hj)
            have hjrest : j ∈ treeIds rest := by
              rcases hj' with h' | h' | h'
              · exact absurd (h'.trans hip) hjp
              · exact absurd h' (not_mem_of_find_eq_none cs j hcs)
              · exact h'
            simp [hjn, childIdSeq_addItem rest n p j hdrest hjrest hjp]
      · by_cases hji : i = j
        · simp only [addItem, if_neg hip, findItemById, if_pos hji]
          simp [childIdSeq, Item.children_mk, addItem_map_id]
        · simp only [addItem, if_neg hip, findItemById, if_neg hji]
          cases hcs : findItemById cs j with
          | some q =>
              have hjcs : j ∈ treeIds cs := mem_of_find_eq_some cs j q hcs
              have hrec := childIdSeq_addItem cs n p j hdcs hjcs hjp
              cases hf : findItemById (addItem cs n (some p)) j with
              | some f =>
                  rw [hf, hcs] at hrec
                  simpa using hrec
              | none =>
                  rw [hf, hcs] at hrec
                  simp [childIdSeq] at hrec
          | none =>
              have hjcs : j ∉ treeIds cs := not_mem_of_find_eq_none cs j hcs
              have hf : findItemById (addItem cs n (some p)) j = none :=
                find_eq_none_of_not_mem _ _ fun hmem' => by
                  rcases mem_treeIds_addItem cs n p j hmem' with h' | h'
                  · exact hjcs h'
                  · exact hdisj j hj h'
              have hjrest : j ∈ treeIds rest := by
                rcases hj' with h' | h' | h'
                · exact absurd h'.symm hji
                · exact absurd h' hjcs
                · exact h'
              simp [hf, childIdSeq_addItem rest n p j hdrest hjrest hjp]

theorem renderHtml_append : ∀ l₁ l₂ : List Item,
    renderHtml (l₁ ++ l₂) = renderHtml l₁ ++ renderHtml l₂
  | [], l₂ => by simp [renderHtml, String.empty_append]
  | Item.mk i t pr cs :: rest, l₂ => by
      simp [renderHtml, renderHtml_append rest l₂, String.append_assoc]

/-! ### The claims -/

/-- Claim C4: for every tree `T` and every id `i` occurring nowhere in `T`,
`removeItem T i` returns a tree structurally equal to `T` — no node removed
and every node's children sequence preserved. -/
theorem c4_removeById_noop (T : List Item) (i : String) (h : i ∉ treeIds T) :
    removeItem T i = T :=
  removeItem_of_not_mem T i h

/-- Witness for C4 at a concrete tree and absent id. -/
theorem c4_removeById_noop_witness :
    removeItem [Item.mk "a" .Div [] [Item.mk "b" .Button [] []]] "z"
      = [Item.mk "a" .Div [] [Item.mk "b" .Button [] []]] :=
  c4_removeById_noop _ "z" (by simp [treeIds])

/-- Claim C10 (implicit): if the target parent id `p` is not present in
`removeItem T n.id` — for example because `p` is `n` itself or one of its
descendants, or never existed — then `moveItem` returns `removeItem T n.id`:
the dragged node is removed and never reinserted, silently losing `n` and
its entire subtree. -/
theorem c10_move_to_missing_parent (T : List Item) (n : Item) (p : String)
    (hn : n.id ∈ treeIds T) (hp : p ∉ treeIds (removeItem T n.id)) :
    moveItem T n (some p) = removeItem T n.id := by
  unfold moveItem
  exact addItem_of_not_mem _ n p hp

/-- Witness for C10: moving "a" under its own descendant "b" leaves only
the removal, i.e. the empty tree. -/
theorem c10_move_to_missing_parent_witness :
    moveItem [Item.mk "a" .Div [] [Item.mk "b" .Div [] []]]
        (Item.mk "a" .Div [] [Item.mk "b" .Div [] []]) (some "b")
      = removeItem [Item.mk "a" .Div [] [Item.mk "b" .Div [] []]]
          (Item.mk "a" .Div [] [Item.mk "b" .Div [] []]).id :=
  c10_move_to_missing_parent _ _ _
    (by simp [treeIds, Item.id_mk])
    (by simp [removeItem, treeIds, Item.id_mk])

/-- Claim C9: selection toggle is an involution from the empty state — for
every item, clicking it twice starting from no selection returns the
selection to none. -/
theorem c9_selection_toggle (item : Item) :
    handleItemClick (handleItemClick none item) item = none := by
  simp [handleItemClick]

/-- Claim C7: the HTML serializer concatenates root results, emits
`<type>` ++ children ++ `</type>` for every node, and on the concrete tree
`[Row [Button, Text]]` yields exactly
`<Row><Button></Button><Text></Text></Row>`. -/
theorem c7_renderHtml_shape :
    (∀ l₁ l₂ : List Item, renderHtml (l₁ ++ l₂) = renderHtml l₁ ++ renderHtml l₂)
    ∧ (∀ (i : String) (t : CompType) (pr : Props) (cs : List Item),
        renderHtml [Item.mk i t pr cs]
          = "<" ++ t.name ++ ">" ++ renderHtml cs ++ "</" ++ t.name ++ ">")
    ∧ renderHtml [Item.mk "r" .Row []
          [Item.mk "b" .Button [] [], Item.mk "x" .Text [] []]]
        = "<Row><Button></Button><Text></Text></Row>" := by
  refine ⟨renderHtml_append, fun i t pr cs => ?_, ?_⟩
  · simp [renderHtml, String.append_empty]
  · simp [renderHtml, CompType.name]

/-- Claim C5: removal by id at arbitrary depth removes exactly one node and
leaves sibling order and every other subtree untouched — for every tree
containing a root `R` with children `[X, Y]` where `Y` has single child `Z`
(and pairwise distinct ids), removing `Z.id` yields the same tree except
that `Y`'s children become empty; in particular `R` still has children
`[X, Y]` in that order. -/
theorem c5_deep_removal (pre post : List Item) (rid : String) (rty : CompType)
    (rpr : Props) (X : Item) (yid : String) (yty : CompType) (ypr : Props)
    (Z : Item)
    (hnd : (treeIds (pre
      ++ Item.mk rid rty rpr [X, Item.mk yid yty ypr [Z]] :: post)).Nodup) :
    removeItem (pre ++ Item.mk rid rty rpr [X, Item.mk yid yty ypr [Z]] :: post) Z.id
      = pre ++ Item.mk rid rty rpr [X, Item.mk yid yty ypr []] :: post := by
  obtain ⟨xi, xt, xpr, xcs⟩ := X
  obtain ⟨zi, zt, zpr, zcs⟩ := Z
  simp only [Item.id_mk]
  rw [treeIds_append, List.nodup_append] at hnd
  obtain ⟨hpre, hrest, hdisj⟩ := hnd
  simp only [treeIds, List.append_nil] at hrest hdisj
  have hm5 : zi ∈ zi :: treeIds zcs := List.mem_cons_self zi _
  have hm4 : zi ∈ yid :: zi :: treeIds zcs := List.mem_cons_of_mem _ hm5
  have hm3 : zi ∈ treeIds xcs ++ yid :: zi :: treeIds zcs :=
    List.mem_append_right _ hm4
  have hm2 : zi ∈ xi :: (treeIds xcs ++ yid :: zi :: treeIds zcs) :=
    List.mem_cons_of_mem _ hm3
  have hm1 : zi ∈ (xi :: (treeIds xcs ++ yid :: zi :: treeIds zcs)) ++ treeIds post :=
    List.mem_append_left _ hm2
  have hm0 : zi ∈ rid :: ((xi :: (treeIds xcs ++ yid :: zi :: treeIds zcs)) ++ treeIds post) :=
    List.mem_cons_of_mem _ hm1
  rw [List.nodup_cons] at hrest
  obtain ⟨hr1, hr2⟩ := hrest
  rw [List.nodup_append] at hr2
  obtain ⟨hXY, hpost2, hdisj2⟩ := hr2
  rw [List.nodup_cons] at hXY
  obtain ⟨hx1, hx2⟩ := hXY
  rw [List.nodup_append] at hx2
  obtain ⟨hxcsN, hYN, hdisj3⟩ := hx2
  rw [List.nodup_cons] at hYN
  obtain ⟨hy1, hZN⟩ := hYN
  have f1 : zi ∉ treeIds pre := fun hm => hdisj hm hm0
  have f2 : ¬ rid = zi := fun he => hr1 (he ▸ hm1)
  have f6 : zi ∉ treeIds post := fun hm => hdisj2 hm2 hm
  have f3 : ¬ xi = zi := fun he => hx1 (he ▸ hm3)
  have f4 : zi ∉ treeIds xcs := fun hm => hdisj3 hm hm4
  have f5 : ¬ yid = zi := fun he => hy1 (he ▸ hm5)
  rw [removeItem_append, removeItem_of_not_mem pre zi f1]
  simp [removeItem, f2, f3, f5, removeItem_of_not_mem xcs zi f4,
    removeItem_of_not_mem post zi f6]

/-- Witness for C5 at a concrete five-node tree. -/
theorem c5_deep_removal_witness :
    removeItem [Item.mk "r" .Row []
        [Item.mk "x" .Button [] [], Item.mk "y" .Div [] [Item.mk "z" .Text [] []]]]
      (Item.mk "z" .Text [] []).id
      = [Item.mk "r" .Row []
          [Item.mk "x" .Button [] [], Item.mk "y" .Div [] []]] :=
  c5_deep_removal [] [] "r" .Row [] (Item.mk "x" .Button [] []) "y" .Div []
    (Item.mk "z" .Text [] []) (by simp [treeIds])

/-- Claim C3: for every tree `T`, fresh node `N` (its subtree ids disjoint
from `T`), and parent id `p` present in `T` whose node's type
`canHaveChildren`: after `addItem T N (some p)`, `findItemById` finds `N`;
`N` is the last child of the node with id `p`; and every other node's
children id sequence is unchanged. -/
theorem c3_insertUnderParent (T : List Item) (N : Item) (p : String)
    (hfresh : ∀ k ∈ treeIds T, k ∉ treeIds [N])
    (hp : p ∈ treeIds T)
    (hc : ∀ q, findItemById T p = some q → canHaveChildren q.type = true) :
    findItemById (addItem T N (some p)) N.id = some N
    ∧ (∃ q, findItemById T p = some q
        ∧ findItemById (addItem T N (some p)) p
            = some (Item.mk q.id q.type q.props (q.children ++ [N])))
    ∧ ∀ j ∈ treeIds T, ¬ j = p →
        childIdSeq (findItemById (addItem T N (some p)) j)
          = childIdSeq (findItemById T j) := by
  have hNfresh : N.id ∉ treeIds T := fun hm =>
    hfresh N.id hm (id_mem_treeIds_single N)
  obtain ⟨q, hq⟩ := find_some_of_mem T p hp
  exact ⟨find_addItem_self T N p hNfresh hp,
    ⟨q, hq, find_addItem_parent T N p q hq⟩,
    fun j hj hjp => childIdSeq_addItem T N p j hfresh hj hjp⟩

/-- Witness for C3: inserting a fresh Button under a Div root. -/
theorem c3_insertUnderParent_witness :
    findItemById (addItem [Item.mk "d" .Div [] [Item.mk "e" .Text [] []]]
        (Item.mk "x" .Button [] []) (some "d")) "x"
      = some (Item.mk "x" .Button [] [])
    ∧ (∃ q, findItemById [Item.mk "d" .Div [] [Item.mk "e" .Text [] []]] "d" = some q
        ∧ findItemById (addItem [Item.mk "d" .Div [] [Item.mk "e" .Text [] []]]
              (Item.mk "x" .Button [] []) (some "d")) "d"
            = some (Item.mk q.id q.type q.props (q.children ++ [Item.mk "x" .Button [] []])))
    ∧ ∀ j ∈ treeIds [Item.mk "d" .Div [] [Item.mk "e" .Text [] []]], ¬ j = "d" →
        childIdSeq (findItemById (addItem [Item.mk "d" .Div [] [Item.mk "e" .Text [] []]]
            (Item.mk "x" .Button [] []) (some "d")) j)
          = childIdSeq (findItemById [Item.mk "d" .Div [] [Item.mk "e" .Text [] []]] j) := by
  have h := c3_insertUnderParent [Item.mk "d" .Div [] [Item.mk "e" .Text [] []]]
    (Item.mk "x" .Button [] []) "d"
    (by simp [treeIds])
    (by simp [treeIds])
    (by
      intro q hq
      simp [findItemById] at hq
      subst hq
      simp [canHaveChildren, Item.type_mk])
  simpa [Item.id_mk] using h

/-- Claim C8: move round-trip has append-only semantics — for a tree with
pairwise distinct ids in which `n` is a child of the node `A` (id `aid`)
and `bid` is an id present in the tree outside `n`'s subtree, moving `n`
to `bid` and back to `aid` (no intervening insertion under `aid`) leaves
`n` as the last element of `A`'s children, its own children intact, the
other children keeping their order. -/
theorem c8_move_roundtrip (T : List Item) (aid : String) (aty : CompType)
    (apr : Props) (acs : List Item) (n : Item) (bid : String)
    (hnd : (treeIds T).Nodup)
    (hA : findItemById T aid = some (Item.mk aid aty apr acs))
    (hn : n ∈ acs)
    (hB : bid ∈ treeIds T)
    (hBout : bid ∉ treeIds [n]) :
    findItemById (moveItem (moveItem T n (some bid)) n (some aid)) aid
      = some (Item.mk aid aty apr ((acs.filter fun c => c.id != n.id) ++ [n])) := by
  have hcollapse : moveItem (moveItem T n (some bid)) n (some aid)
      = addItem (removeItem T n.id) n (some aid) := by
    unfold moveItem
    rw [removeItem_addItem, removeItem_removeItem]
  rw [hcollapse]
  have hfound := find_remove_of_child T aid aty apr acs n hnd hA hn
  have hstep := find_addItem_parent (removeItem T n.id) n aid _ hfound
  rw [hstep]
  have hsubA := find_subtree_sublist T aid _ hA
  have hndA : (treeIds [Item.mk aid aty apr acs]).Nodup :=
    List.Nodup.sublist hsubA hnd
  simp only [treeIds, List.append_nil] at hndA
  have hndacs : (treeIds acs).Nodup := (List.nodup_cons.mp hndA).2
  rw [Item.id_mk, Item.type_mk, Item.props_mk, Item.children_mk,
    removeItem_filter_of_nodup acs n hndacs hn]

/-- Witness for C8: `n` moves from under `A` to `B` and back, ending as the
last child of `A` rather than at its original first position. -/
theorem c8_move_roundtrip_witness :
    findItemById
      (moveItem
        (moveItem
          [Item.mk "A" .Div []
              [Item.mk "n" .Div [] [Item.mk "g" .Text [] []],
               Item.mk "X" .Button [] []],
           Item.mk "B" .Div [] []]
          (Item.mk "n" .Div [] [Item.mk "g" .Text [] []]) (some "B"))
        (Item.mk "n" .Div [] [Item.mk "g" .Text [] []]) (some "A")) "A"
      = some (Item.mk "A" .Div []
          (([Item.mk "n" .Div [] [Item.mk "g" .Text [] []],
             Item.mk "X" .Button [] []].filter
              fun c => c.id != (Item.mk "n" .Div [] [Item.mk "g" .Text [] []]).id)
            ++ [Item.mk "n" .Div [] [Item.mk "g" .Text [] []]])) :=
  c8_move_roundtrip
    [Item.mk "A" .Div []
        [Item.mk "n" .Div [] [Item.mk "g" .Text [] []],
         Item.mk "X" .Button [] []],
     Item.mk "B" .Div [] []]
    "A" .Div []
    [Item.mk "n" .Div [] [Item.mk "g" .Text [] []], Item.mk "X" .Button [] []]
    (Item.mk "n" .Div [] [Item.mk "g" .Text [] []]) "B"
    (by simp [treeIds])
    (by simp [findItemById])
    (List.mem_cons_self _ _)
    (by simp [treeIds])
    (by simp [treeIds, Item.id_mk])

/-- Claim C1 (code-bug evidence): the hover guard only checks the target
id against the dragged id and the dragged node's current parent id, so
hovering dragged node "a" over its strict descendant "b" (lower half,
container target) is not guarded: `moveItem` removes "a" with its whole
subtree and then finds no node "b" to reinsert under, and the tree becomes
empty instead of staying unchanged. -/
theorem c1_hover_over_descendant_mutates :
    hoverStep [Item.mk "a" .Div [] [Item.mk "b" .Div [] []]]
        (Item.mk "a" .Div [] [Item.mk "b" .Div [] []]) none
        (Item.mk "b" .Div [] []) true = []
    ∧ [Item.mk "a" .Div [] [Item.mk "b" .Div [] []]] ≠ ([] : List Item) := by
  constructor
  · simp [hoverStep, moveItem, removeItem, addItem, canHaveChildren,
      Item.id_mk, Item.type_mk]
  · simp

/-- Claim C2 (counterexample): the background-drop payload `b` comes from
a node existing (nested) in the tree, yet the result's root ids are
`["a", "f"]` — no root node carries the unchanged id "b" — and the
original "b" is still nested under "a", so the drop is a fresh-id
duplication, not a true move. -/
theorem c2_counterexample_nested_payload :
    findItemById [Item.mk "a" .Div [] [Item.mk "b" .Button [] []]] "b"
        = some (Item.mk "b" .Button [] [])
    ∧ (handleDrop [Item.mk "a" .Div [] [Item.mk "b" .Button [] []]]
        (Item.mk "b" .Button [] []) "f").map Item.id = ["a", "f"]
    ∧ findItemById (handleDrop [Item.mk "a" .Div [] [Item.mk "b" .Button [] []]]
        (Item.mk "b" .Button [] []) "f") "b"
        = some (Item.mk "b" .Button [] []) := by
  refine ⟨by simp [findItemById], ?_, ?_⟩
  · simp [handleDrop, Item.id_mk, Item.type_mk, Item.props_mk, Item.children_mk]
  · simp [handleDrop, findItemById, Item.id_mk, Item.type_mk, Item.props_mk,
      Item.children_mk]

/-- Claim C2 (amended): on a background drop the code checks the payload
id against the root-level ids only.  If the payload id is a root id the
tree is returned unchanged (no reinsertion); otherwise — whether the
payload came from the palette or from a node nested anywhere in the
tree — a copy with the fresh id is appended at root and nothing is
removed, so a nested payload is duplicated rather than moved. -/
theorem c2_amended_background_drop (tree : List Item) (dropped : Item)
    (freshId : String) :
    (dropped.id ∈ tree.map Item.id → handleDrop tree dropped freshId = tree)
    ∧ (dropped.id ∉ tree.map Item.id →
        handleDrop tree dropped freshId
          = tree ++ [Item.mk freshId dropped.type dropped.props dropped.children]) := by
  constructor
  · intro hmem
    have hany : (tree.any fun it => it.id == dropped.id) = true := by
      rcases List.mem_map.mp hmem with ⟨x, hx, hxe⟩
      exact List.any_eq_true.mpr ⟨x, hx, by simp [hxe]⟩
    simp [handleDrop, hany]
  · intro hmem
    have hany : (tree.any fun it => it.id == dropped.id) = false := by
      refine List.any_eq_false.mpr fun x hx => ?_
      have hne : x.id ≠ dropped.id := fun he => hmem (List.mem_map.mpr ⟨x, hx, he⟩)
      simpa using hne
    simp [handleDrop, hany]

/-- Witness for the amended C2 at a payload id absent from the root ids. -/
theorem c2_amended_background_drop_witness :
    handleDrop [Item.mk "a" .Div [] []] (Item.mk "q" .Text [] []) "f"
      = [Item.mk "a" .Div [] [], Item.mk "f" .Text [] []] := by
  have h := (c2_amended_background_drop [Item.mk "a" .Div [] []]
    (Item.mk "q" .Text [] []) "f").2 (by simp [Item.id_mk])
  simpa [Item.id_mk, Item.type_mk, Item.props_mk, Item.children_mk] using h

/-- Claim C6 (code-bug evidence): starting from a tree with pairwise
distinct ids, dropping the nested container node "b" (which carries child
"c") on the background appends a fresh-id copy of "b" while the original
stays nested, so the id "c" then occurs twice and the uniqueness
invariant is broken by a single `handleDrop`. -/
theorem c6_background_drop_duplicates_ids :
    (treeIds [Item.mk "a" .Div []
        [Item.mk "b" .Div [] [Item.mk "c" .Button [] []]]]).Nodup
    ∧ ¬ (treeIds (handleDrop
        [Item.mk "a" .Div [] [Item.mk "b" .Div [] [Item.mk "c" .Button [] []]]]
        (Item.mk "b" .Div [] [Item.mk "c" .Button [] []]) "f")).Nodup := by
  constructor
  · simp [treeIds]
  · have he : handleDrop
        [Item.mk "a" .Div [] [Item.mk "b" .Div [] [Item.mk "c" .Button [] []]]]
        (Item.mk "b" .Div [] [Item.mk "c" .Button [] []]) "f"
        = [Item.mk "a" .Div [] [Item.mk "b" .Div [] [Item.mk "c" .Button [] []]],
           Item.mk "f" .Div [] [Item.mk "c" .Button [] []]] := by
      simp [handleDrop, Item.id_mk, Item.type_mk, Item.props_mk, Item.children_mk]
    rw [he]
    simp only [treeIds]
    decide
